import Mathlib

/-!
Verification development for the Kabyle ASR server (`app.py`).

The file embeds the two core pieces of the program:

* `post_process_kabyle_text` — the annexation-correction text engine
  (lower-casing, the regex substitution built from the particle lexicon,
  and the whitespace / hyphen cleanup passes), modelled as pure functions
  on `List Char`.  The regex `\b(\w{2,})\s+(p1|p2|...)\b` with replacement
  `\1-\2` is embedded as a direct left-to-right scanner: the character
  classes `\w` and `\s` become `isWordChar` / `isSpaceChar`, the
  alternation becomes a first-match search over the length-sorted particle
  list, and the scanner mirrors the engine trying every start position and
  resuming after the end of each non-overlapping match.

* `transcribe` — the request pipeline, modelled as a function from an
  environment (model availability and the outcomes of the external
  collaborators pydub / NeMo), a request, and a disk state (the multiset of
  temporary files, as a list of ids) to a response and a final disk state.
  The `finally` block becomes an explicit `cleanup` applied to the
  temp-file handles recorded by the body.
-/

namespace KabAsr

/-- Model of the Python regex class `\s` (the whitespace characters the
`re` module matches for `str` patterns, and the characters stripped by
`str.strip`). -/
def isSpaceChar (c : Char) : Bool :=
  decide ((9 ≤ c.toNat ∧ c.toNat ≤ 13) ∨ c.toNat = 32 ∨
    (28 ≤ c.toNat ∧ c.toNat ≤ 31) ∨ c.toNat = 133 ∨ c.toNat = 160 ∨
    c.toNat = 0x1680 ∨ (0x2000 ≤ c.toNat ∧ c.toNat ≤ 0x200a) ∨
    c.toNat = 0x2028 ∨ c.toNat = 0x2029 ∨ c.toNat = 0x202f ∨
    c.toNat = 0x205f ∨ c.toNat = 0x3000)

/-- Model of the Python regex class `\w` (word characters), restricted to
the alphabet the program exercises: ASCII letters and digits, underscore,
and the one non-ASCII letter appearing in the particle lexicon, ɣ
(U+0263). -/
def isWordChar (c : Char) : Bool :=
  c.isAlphanum || c == '_' || c == 'ɣ'

/-- Model of `str.lower` on a single character (ASCII case mapping). -/
def lowerChar (c : Char) : Char :=
  if 65 ≤ c.toNat ∧ c.toNat ≤ 90 then Char.ofNat (c.toNat + 32) else c

/-- An upper-case character (ASCII range, matching `lowerChar`). -/
def isUpperChar (c : Char) : Bool :=
  decide (65 ≤ c.toNat ∧ c.toNat ≤ 90)

/-! ### Cleanup passes

`re.sub(r'\s+', ' ', text)` replaces every maximal run of whitespace by a
single space; `.strip()` removes leading and trailing whitespace;
`re.sub(r'-+', '-', text)` replaces every maximal run of hyphens by a
single hyphen.  Each is modelled as a one-pass scanner whose Boolean flag
records whether the scanner is inside a run whose head has already been
emitted. -/

def wsCollapseAux : Bool → List Char → List Char
  | _, [] => []
  | inRun, c :: cs =>
    if isSpaceChar c then
      if inRun then wsCollapseAux true cs
      else ' ' :: wsCollapseAux true cs
    else c :: wsCollapseAux false cs

/-- Model of `re.sub(r'\s+', ' ', text)`. -/
def wsCollapse (l : List Char) : List Char :=
  wsCollapseAux false l

/-- Remove trailing whitespace characters. -/
def dropTrailing : List Char → List Char
  | [] => []
  | c :: cs =>
    match dropTrailing cs with
    | [] => if isSpaceChar c then [] else [c]
    | r => c :: r

/-- Model of `str.strip()`. -/
def strip (l : List Char) : List Char :=
  dropTrailing (l.dropWhile isSpaceChar)

def hyCollapseAux : Bool → List Char → List Char
  | _, [] => []
  | inRun, c :: cs =>
    if c == '-' then
      if inRun then hyCollapseAux true cs
      else '-' :: hyCollapseAux true cs
    else c :: hyCollapseAux false cs

/-- Model of `re.sub(r'-+', '-', text)`. -/
def hyCollapse (l : List Char) : List Char :=
  hyCollapseAux false l

/-! ### The particle lexicon

The nine particle-class sets of the source, as lists in source literal
order.  Python `set`s do not record an order; the model keeps the literal
order and deduplicates the union (`List.dedup`), which fixes one of the
iteration orders a Python set may present.  The descending-length sort
below makes the choice irrelevant for the corrector (proved as the
order-independence theorem). -/

def PoPro : List String :=
  ["inu", "inem", "ines", "nneɣ", "ntex", "nwen", "nwent", "nsen", "nsent",
   "iw", "ik", "im", "is", "w", "k", "m", "s", "tneɣ", "tentex", "tsen", "tsent"]

def SpWo : List String :=
  ["deg", "gar", "ɣer", "ɣur", "fell", "ɣef", "ddaw", "nnig", "ɣid", "aql",
   "sɣur", "sennig", "deffir", "sdat"]

def StPaSp : List String :=
  ["i", "am", "at", "s", "neɣ", "aɣ"]

def StPa : List String :=
  ["ak", "as", "aneɣ", "anteɣ", "awen", "awent", "asen", "asent",
   "k", "m", "ntex", "wen", "went", "sen", "sent", "akem", "att",
   "aken", "akent", "aten", "atent"]

def DePa : List String :=
  ["a", "agi", "nni", "ihin", "nniden"]

def DiPa : List String :=
  ["id", "in"]

def FuPa : List String :=
  ["ad", "ara"]

def DiObPa : List String :=
  ["yi", "k", "kem", "t", "tt", "ay", "ken", "kent", "ten", "tent",
   "iyi", "ik", "ikem", "it", "itt", "iken", "ikent", "iten", "itent"]

def InObPa : List String :=
  ["yi", "yak", "yam", "yas", "yaɣ", "yawen", "yawent", "yasen", "yasent"]

/-- The particle classes of the source, in source order. -/
def particleClasses : List (List String) :=
  [PoPro, SpWo, StPaSp, StPa, DePa, DiPa, FuPa, DiObPa, InObPa]

/-- Model of `PoPro.union(SpWo, StPa, StPaSp, DePa, DiPa, FuPa, DiObPa,
InObPa)`: the deduplicated union of all particle classes (argument order
as in the source). -/
def all_annexable_particles : List String :=
  (PoPro ++ SpWo ++ StPa ++ StPaSp ++ DePa ++ DiPa ++ FuPa ++ DiObPa ++ InObPa).dedup

/-- Model of `sorted(list(all_annexable_particles), key=len, reverse=True)`:
the particles ordered by non-increasing length (ties keep the underlying
order, as Python's stable sort does). -/
def sorted_all_annexable : List String :=
  List.insertionSort (fun a b => b.length ≤ a.length) all_annexable_particles

/-- The alternation of the regex pattern, as character lists in the order
the engine tries them. -/
def annexParticles : List (List Char) :=
  sorted_all_annexable.map String.toList

/-! ### The annexation substitution

`re.sub(r'\b(\w{2,})\s+(' + '|'.join(sorted_all_annexable) + r')\b', r'\1-\2', text)`.

A match at a position requires: a word boundary (the previous character is
not a word character), a maximal run of at least two word characters (the
stem; a shorter-than-maximal run would be followed by a word character,
which cannot match `\s+`, so greediness with this pattern always takes the
maximal run), a maximal nonempty run of whitespace (every particle starts
with a letter, so backtracking into the whitespace run cannot help), and
then the first particle of the alternation that matches literally and is
followed by a word boundary.  The scanner tries every start position and
resumes right after each match, as `re.sub` does with its non-overlapping
left-to-right scan. -/

/-- The trailing `\b` of the pattern: every particle ends in a word
character, so the boundary holds iff the rest is empty or starts with a
non-word character. -/
def boundaryOk : List Char → Bool
  | [] => true
  | c :: _ => !isWordChar c

/-- Match the literal `p` at the front of `r`; on success return the rest. -/
def stripLit : List Char → List Char → Option (List Char)
  | [], r => some r
  | _, [] => none
  | a :: ps, b :: rs => if a == b then stripLit ps rs else none

/-- The alternation: the first particle that matches literally and is
followed by a word boundary, together with the rest of the input. -/
def firstMatch : List (List Char) → List Char → Option (List Char × List Char)
  | [], _ => none
  | p :: ps, r =>
    match stripLit p r with
    | some rest => if boundaryOk rest then some (p, rest) else firstMatch ps r
    | none => firstMatch ps r

/-- Whether particle `p` matches at the front of `r` (literal plus
trailing boundary). -/
def pMatch (p r : List Char) : Bool :=
  match stripLit p r with
  | some rest => boundaryOk rest
  | none => false

/-- Attempt the whole pattern at the current position (the caller has
already checked the leading word boundary).  On success, return the stem,
the particle, and the input after the match. -/
def tryAnnex (ps : List (List Char)) (l : List Char) :
    Option (List Char × List Char × List Char) :=
  let stem := l.takeWhile isWordChar
  if stem.length < 2 then none
  else
    let r1 := l.dropWhile isWordChar
    let sp := r1.takeWhile isSpaceChar
    if sp.isEmpty then none
    else
      match firstMatch ps (r1.dropWhile isSpaceChar) with
      | some (p, rest) => some (stem, p, rest)
      | none => none

/-- The substitution scanner.  `prevIsWord` records whether the character
just before the current position is a word character (so whether the
leading `\b` can hold); the fuel argument makes the recursion structural
and is always called with at least the length of the list, which each
step decreases by at least one. -/
def annexSubAux (ps : List (List Char)) : Nat → Bool → List Char → List Char
  | 0, _, l => l
  | _ + 1, _, [] => []
  | fuel + 1, prevIsWord, c :: cs =>
    if prevIsWord then c :: annexSubAux ps fuel (isWordChar c) cs
    else
      match tryAnnex ps (c :: cs) with
      | some (stem, p, rest) =>
        stem ++ '-' :: (p ++ annexSubAux ps fuel true rest)
      | none => c :: annexSubAux ps fuel (isWordChar c) cs

/-- Model of the annexation `re.sub`, parameterised by the alternation
list. -/
def annexSub (ps : List (List Char)) (l : List Char) : List Char :=
  annexSubAux ps l.length false l

/-- The whole corrector body on character lists, parameterised by the
alternation list: lower-case, annexation substitution, whitespace
collapse and strip, hyphen collapse. -/
def correctList (ps : List (List Char)) (l : List Char) : List Char :=
  hyCollapse (strip (wsCollapse (annexSub ps (l.map lowerChar))))

/-- Model of `post_process_kabyle_text` on strings (the defensive
non-string branch of the source lies outside the `String` domain of the
model; the `if not text` branch is the empty-string test). -/
def post_process_kabyle_text (s : String) : String :=
  if s.isEmpty then "" else String.mk (correctList annexParticles s.data)

/-- The corrector with an explicit alternation list (used to state
order-independence of the alternation). -/
def correctWith (ps : List (List Char)) (s : String) : String :=
  if s.isEmpty then "" else String.mk (correctList ps s.data)

/-! ### Output-shape predicates

Executable predicates used to state the cleanup guarantees: every
whitespace character is a plain space, no two adjacent characters form a
given pair, and the ends carry no whitespace. -/

/-- Every whitespace character in the list is a plain space. -/
def plainSpaces (l : List Char) : Bool :=
  l.all fun c => !isSpaceChar c || c == ' '

/-- No two adjacent characters are `a` followed by `b`. -/
def noAdj (a b : Char) : List Char → Bool
  | [] => true
  | [_] => true
  | x :: y :: rest => !(x == a && y == b) && noAdj a b (y :: rest)

/-- The first character, if any, is not whitespace. -/
def headNotSpace : List Char → Bool
  | [] => true
  | c :: _ => !isSpaceChar c

/-- The last character, if any, is not whitespace. -/
def lastNotSpace : List Char → Bool
  | [] => true
  | [c] => !isSpaceChar c
  | _ :: c :: rest => lastNotSpace (c :: rest)

/-- The first character, if any, differs from `a`. -/
def headIsNot (a : Char) : List Char → Bool
  | [] => true
  | c :: _ => c != a

/-- Adjacent-pairs formulation of the descending-length ordering of the
alternation. -/
def lenSortedB : List (List Char) → Bool
  | [] => true
  | [_] => true
  | p :: q :: rest => decide (q.length ≤ p.length) && lenSortedB (q :: rest)

/-- Swap the first two entries of a list (used to exhibit a second
ordering of the equal-length particles). -/
def swapHead2 : List (List Char) → List (List Char)
  | a :: b :: t => b :: a :: t
  | l => l

/-- Union of a list of particle classes (as concatenation). -/
def classUnion (cs : List (List String)) : List String :=
  cs.foldr (· ++ ·) []

/-- Whether two lists of strings have the same members. -/
def sameMembers (l1 l2 : List String) : Bool :=
  l1.all (fun x => l2.contains x) && l2.all (fun x => l1.contains x)

instance : IsTotal String fun a b => b.length ≤ a.length :=
  ⟨fun a b => Nat.le_total b.length a.length⟩

instance : IsTrans String fun a b => b.length ≤ a.length :=
  ⟨fun _ _ _ hab hbc => Nat.le_trans hbc hab⟩

/-! ### The request pipeline -/

/-- An uploaded file: a filename and its payload bytes. -/
structure UploadFile where
  filename : String
  content : List Nat
deriving DecidableEq

/-- A request: the optional `audio` field of `request.files`. -/
structure AsrRequest where
  audio : Option UploadFile
deriving DecidableEq

/-- Model of one element of the list returned by `asr_model.transcribe`:
its Python truthiness and its `text` attribute when present (`hasattr`). -/
structure TranscriptItem where
  truthy : Bool
  text : Option String
deriving DecidableEq

/-- Outcome of the pydub normalization stage.  The two failure points
behave differently with respect to temporary files: a decode failure
(`AudioSegment.from_file` raises) happens before the second
`NamedTemporaryFile` is created, while an export failure
(`processed_audio.export` raises) happens after the second temp file was
created but before `processed_file_path` is assigned. -/
inductive NormResult where
  | ok : NormResult
  | decodeFail : NormResult
  | exportFail : NormResult
deriving DecidableEq

/-- Outcome of the NeMo transcription call. -/
inductive AsrResult where
  | ok : List TranscriptItem → AsrResult
  | fail : AsrResult
deriving DecidableEq

/-- The environment of one request: whether the model loaded at process
start, and the outcomes of the external collaborators (upload save, pydub,
NeMo).  A failing save models `audio_file.save` raising inside the first
`with` block; that exception is only caught by the outer generic
`except`, after the first temp file was created but before
`temp_input_file` was assigned. -/
structure ServerEnv where
  modelLoaded : Bool
  saveOk : Bool
  norm : NormResult
  asr : AsrResult
deriving DecidableEq

/-- An HTTP response: status code, and the JSON body fields. -/
structure HttpResponse where
  status : Nat
  transcription : Option String
  error : Option String
deriving DecidableEq

/-- A fresh temporary-file id, distinct from everything on disk
(`tempfile.NamedTemporaryFile` yields a unique name). -/
def freshFile (d : List Nat) : Nat :=
  d.foldr max 0 + 1

/-- Model of `if path and os.path.exists(path): os.remove(path)`. -/
def removeFile (d : List Nat) (f : Nat) : List Nat :=
  if f ∈ d then d.erase f else d

/-- The `finally` block: unconditionally release both recorded handles. -/
def cleanup (t1 t2 : Option Nat) (d : List Nat) : List Nat :=
  let d1 := match t1 with
    | some f => removeFile d f
    | none => d
  match t2 with
  | some f => removeFile d1 f
  | none => d1

/-- The body of the `try` block: acquire the input temp file, save the
upload, normalize into a second temp file, transcribe, post-process.
Returns the response, the two recorded handle variables
(`temp_input_file` and `processed_file_path`), and the disk state at the
point the body returns (before `finally` runs).

The handle variables mirror the source exactly: each starts as `none`
and is assigned only *after* the fallible call inside the corresponding
`with` block succeeds.  `NamedTemporaryFile(delete=False)` creates the
file on disk as soon as the `with` block is entered, so when
`audio_file.save` raises the first file exists with `temp_input_file`
still `none`, and when `processed_audio.export` raises the second file
exists with `processed_file_path` still `none`. -/
def transcribeBody (env : ServerEnv) (d : List Nat) :
    HttpResponse × Option Nat × Option Nat × List Nat :=
  let t1 := freshFile d
  let d1 := t1 :: d
  if env.saveOk = false then
    (⟨500, none, some ("An internal server error occurred.")⟩, none, none, d1)
  else
    match env.norm with
    | NormResult.decodeFail =>
      (⟨500, none,
        some ("Failed to process audio file. Please ensure it\x27s a valid audio format.")⟩,
       some t1, none, d1)
    | NormResult.exportFail =>
      let t2 := freshFile d1
      let d2 := t2 :: d1
      (⟨500, none,
        some ("Failed to process audio file. Please ensure it\x27s a valid audio format.")⟩,
       some t1, none, d2)
    | NormResult.ok =>
      let t2 := freshFile d1
      let d2 := t2 :: d1
      match env.asr with
      | AsrResult.fail =>
        (⟨500, none, some ("Transcription failed due to a model error.")⟩,
         some t1, some t2, d2)
      | AsrResult.ok items =>
        match items with
        | [] =>
          (⟨500, none, some ("Transcription failed. No text returned.")⟩,
           some t1, some t2, d2)
        | it :: _ =>
          if it.truthy then
            match it.text with
            | some raw =>
              (⟨200, some (post_process_kabyle_text raw), none⟩,
               some t1, some t2, d2)
            | none =>
              (⟨500, none, some ("Transcription failed. No text returned.")⟩,
               some t1, some t2, d2)
          else
            (⟨500, none, some ("Transcription failed. No text returned.")⟩,
             some t1, some t2, d2)

/-- Model of the `/transcribe` endpoint: the early 503/400 checks, then
the `try` body followed by the `finally` cleanup. -/
def transcribe (env : ServerEnv) (req : AsrRequest) (d : List Nat) :
    HttpResponse × List Nat :=
  if env.modelLoaded = false then
    (⟨503, none, some ("ASR model is not loaded.")⟩, d)
  else
    match req.audio with
    | none => (⟨400, none, some ("No audio file provided")⟩, d)
    | some f =>
      if f.filename = "" then
        (⟨400, none, some ("No selected file")⟩, d)
      else
        let r := transcribeBody env d
        (r.1, cleanup r.2.1 r.2.2.1 r.2.2.2)

/-! ## Pipeline lemmas -/

theorem mem_le_foldr_max (d : List Nat) (x : Nat) (hx : x ∈ d) :
    x ≤ d.foldr max 0 := by
  induction d with
  | nil => cases hx
  | cons a t ih =>
    rcases List.mem_cons.mp hx with h | h
    · subst h; exact Nat.le_max_left _ _
    · exact Nat.le_trans (ih h) (Nat.le_max_right _ _)

theorem lt_freshFile_of_mem (d : List Nat) (x : Nat) (hx : x ∈ d) :
    x < freshFile d :=
  Nat.lt_succ_of_le (mem_le_foldr_max d x hx)

theorem removeFile_cons_self (d : List Nat) (f : Nat) :
    removeFile (f :: d) f = d := by
  simp [removeFile, List.erase_cons_head]

theorem cleanup_one (d : List Nat) :
    cleanup (some (freshFile d)) none (freshFile d :: d) = d := by
  simp [cleanup, removeFile_cons_self]

theorem cleanup_two (d : List Nat) :
    cleanup (some (freshFile d)) (some (freshFile (freshFile d :: d)))
      (freshFile (freshFile d :: d) :: freshFile d :: d) = d := by
  have h1 : freshFile d < freshFile (freshFile d :: d) :=
    lt_freshFile_of_mem _ _ (List.mem_cons_self _ _)
  have hne : freshFile (freshFile d :: d) ≠ freshFile d := Nat.ne_of_gt h1
  simp only [cleanup]
  rw [show removeFile (freshFile (freshFile d :: d) :: freshFile d :: d) (freshFile d)
      = freshFile (freshFile d :: d) :: d from ?_]
  · exact removeFile_cons_self _ _
  · have hmem : freshFile d ∈ freshFile (freshFile d :: d) :: freshFile d :: d := by
      simp
    simp only [removeFile, if_pos hmem]
    rw [List.erase_cons_tail (by simpa using hne), List.erase_cons_head]

/-- On the paths where the handle variables were assigned before any
failure (the save succeeded and the export did not raise), the body
records exactly the files it created: one handle after a decode failure,
two handles otherwise. -/
theorem transcribeBody_handles_clean (env : ServerEnv) (d : List Nat)
    (hsv : env.saveOk = true) (hnm : env.norm ≠ NormResult.exportFail) :
    (transcribeBody env d).2 = (some (freshFile d), none, freshFile d :: d) ∨
    (transcribeBody env d).2 = (some (freshFile d),
      some (freshFile (freshFile d :: d)),
      freshFile (freshFile d :: d) :: freshFile d :: d) := by
  rcases env with ⟨ml, sv, nm, asr⟩
  cases sv
  · exact absurd hsv (by simp)
  · cases nm
    · cases asr with
      | fail => right; rfl
      | ok items =>
        cases items with
        | nil => right; rfl
        | cons it rest =>
          rcases it with ⟨tr, tx⟩
          cases tr
          · right; rfl
          · cases tx
            · right; rfl
            · right; rfl
    · left; rfl
    · exact absurd rfl hnm

/-- On those clean paths the `finally` cleanup returns the disk to its
initial state. -/
theorem transcribeBody_cleanup_clean (env : ServerEnv) (d : List Nat)
    (hsv : env.saveOk = true) (hnm : env.norm ≠ NormResult.exportFail) :
    cleanup (transcribeBody env d).2.1 (transcribeBody env d).2.2.1
      (transcribeBody env d).2.2.2 = d := by
  rcases transcribeBody_handles_clean env d hsv hnm with h | h <;> rw [h]
  · exact cleanup_one d
  · exact cleanup_two d

/-- On the clean paths the endpoint restores the disk (the true part of
the cleanup invariant; the save-failure and export-failure paths leak,
see the C2 theorem). -/
theorem transcribe_disk_eq_of_clean (env : ServerEnv) (req : AsrRequest)
    (d : List Nat) (hsv : env.saveOk = true)
    (hnm : env.norm ≠ NormResult.exportFail) :
    (transcribe env req d).2 = d := by
  unfold transcribe
  split
  · rfl
  · split
    · rfl
    · split
      · rfl
      · exact transcribeBody_cleanup_clean env d hsv hnm

/-- The body only produces 500 or 200 responses. -/
theorem transcribeBody_status (env : ServerEnv) (d : List Nat) :
    (transcribeBody env d).1.status = 500 ∨ (transcribeBody env d).1.status = 200 := by
  rcases env with ⟨ml, sv, nm, asr⟩
  cases sv
  · left; rfl
  · cases nm
    · cases asr with
      | fail => left; rfl
      | ok items =>
        cases items with
        | nil => left; rfl
        | cons it rest =>
          rcases it with ⟨tr, tx⟩
          cases tr
          · left; rfl
          · cases tx
            · left; rfl
            · right; rfl
    · left; rfl
    · left; rfl

/-- With the model loaded, an absent audio field is answered 400 before
the temp-file block. -/
theorem transcribe_none_eq (env : ServerEnv) (d : List Nat)
    (h : env.modelLoaded = true) :
    transcribe env ⟨none⟩ d =
      (⟨400, none, some ("No audio file provided")⟩, d) := by
  unfold transcribe
  rw [if_neg (by simp [h] : ¬env.modelLoaded = false)]

/-- With the model loaded, an empty filename is answered 400 before the
temp-file block. -/
theorem transcribe_emptyname_eq (env : ServerEnv) (f : UploadFile)
    (d : List Nat) (h : env.modelLoaded = true) (hf : f.filename = "") :
    transcribe env ⟨some f⟩ d =
      (⟨400, none, some ("No selected file")⟩, d) := by
  unfold transcribe
  rw [if_neg (by simp [h] : ¬env.modelLoaded = false)]
  simp only []
  rw [if_pos hf]

/-- With the model loaded and a usable filename, the endpoint's response
is the body's response. -/
theorem transcribe_some_resp (env : ServerEnv) (f : UploadFile)
    (d : List Nat) (h : env.modelLoaded = true) (hf : f.filename ≠ "") :
    (transcribe env ⟨some f⟩ d).1 = (transcribeBody env d).1 := by
  unfold transcribe
  rw [if_neg (by simp [h] : ¬env.modelLoaded = false)]
  simp only []
  rw [if_neg hf]

/-- Claim C2 (code bug): the cleanup invariant fails on two paths.  Each
temp file is created on disk as soon as its `NamedTemporaryFile` block is
entered, but the handle variable the `finally` consults is assigned only
after the fallible call inside the block succeeds.  So when
`audio_file.save` raises, the stored temp file survives the request
(`temp_input_file` is still `none` in the `finally`), and when
`processed_audio.export` raises, the normalized temp file survives
(`processed_file_path` is still `none`).  Evaluating the model on an
empty disk: the save-failure run returns 500 and leaves file 1 behind,
and the export-failure run returns 500 and leaves file 2 behind. -/
theorem claim_C2 :
    (transcribe ⟨true, false, NormResult.ok, AsrResult.fail⟩
        ⟨some ⟨"a.wav", [1]⟩⟩ []).1.status = 500 ∧
      (transcribe ⟨true, false, NormResult.ok, AsrResult.fail⟩
        ⟨some ⟨"a.wav", [1]⟩⟩ []).2 = [1] ∧
      (transcribe ⟨true, true, NormResult.exportFail, AsrResult.fail⟩
        ⟨some ⟨"a.wav", [1]⟩⟩ []).1.status = 500 ∧
      (transcribe ⟨true, true, NormResult.exportFail, AsrResult.fail⟩
        ⟨some ⟨"a.wav", [1]⟩⟩ []).2 = [2] := by
  refine ⟨rfl, by decide, rfl, by decide⟩

/-- Claim C7: if the recognition model was unavailable at process start,
every request returns ServiceUnavailable (HTTP 503) with the fixed error
body, and the disk state is returned untouched (the 503 branch precedes
the temp-file block). -/
theorem claim_C7 (env : ServerEnv) (req : AsrRequest) (d : List Nat)
    (h : env.modelLoaded = false) :
    transcribe env req d =
      (⟨503, none, some ("ASR model is not loaded.")⟩, d) := by
  unfold transcribe
  rw [h]
  rfl

theorem claim_C7_witness :
    transcribe ⟨false, true, NormResult.ok, AsrResult.fail⟩ ⟨none⟩ [3, 1] =
      (⟨503, none, some ("ASR model is not loaded.")⟩, [3, 1]) :=
  claim_C7 ⟨false, true, NormResult.ok, AsrResult.fail⟩ ⟨none⟩ [3, 1] rfl

/-- Claim C3 counterexample: a present-but-empty payload with a usable
filename is not rejected with HTTP 400; with the model loaded and pydub
failing on the empty file (as it does), the endpoint returns 500, so the
claimed "400 iff payload empty or filename unusable" is false. -/
theorem claim_C3_counterexample :
    (transcribe ⟨true, true, NormResult.decodeFail, AsrResult.fail⟩
        ⟨some ⟨"a.wav", []⟩⟩ []).1.status = 500 ∧
      (⟨some ⟨"a.wav", []⟩⟩ : AsrRequest).audio = some ⟨"a.wav", []⟩ := by
  constructor <;> rfl

/-- Claim C3 (amended): with the model loaded, the pipeline rejects a
request with HTTP 400 if and only if the `audio` field is absent or its
filename is empty; payload emptiness is not checked (an empty payload with
a usable filename proceeds to the audio-processing stage).  The 400
branches return the disk untouched: they precede the temp-file block. -/
theorem claim_C3 (env : ServerEnv) (req : AsrRequest) (d : List Nat)
    (h : env.modelLoaded = true) :
    ((transcribe env req d).1.status = 400 ↔
      req.audio = none ∨ ∃ f, req.audio = some f ∧ f.filename = "") ∧
      ((transcribe env req d).1.status = 400 → (transcribe env req d).2 = d) := by
  rcases req with ⟨audio⟩
  cases audio with
  | none =>
    rw [transcribe_none_eq env d h]
    exact ⟨by simp, fun _ => rfl⟩
  | some f =>
    by_cases hf : f.filename = ""
    · rw [transcribe_emptyname_eq env f d h hf]
      exact ⟨by simp [hf], fun _ => rfl⟩
    · have hresp := transcribe_some_resp env f d h hf
      constructor
      · rw [hresp]
        constructor
        · intro hst
          exfalso
          rcases transcribeBody_status env d with h5 | h2 <;> omega
        · rintro (h1 | ⟨g, hg, hgf⟩)
          · exact absurd h1 (by simp)
          · rw [Option.some_inj] at hg
            subst hg
            exact absurd hgf hf
      · intro hst
        rw [hresp] at hst
        exfalso
        rcases transcribeBody_status env d with h5 | h2 <;> omega

theorem claim_C3_witness :
    ((transcribe ⟨true, true, NormResult.ok, AsrResult.fail⟩ ⟨none⟩ []).1.status = 400 ↔
      (⟨none⟩ : AsrRequest).audio = none ∨
        ∃ f, (⟨none⟩ : AsrRequest).audio = some f ∧ f.filename = "") ∧
      ((transcribe ⟨true, true, NormResult.ok, AsrResult.fail⟩ ⟨none⟩ []).1.status = 400 →
        (transcribe ⟨true, true, NormResult.ok, AsrResult.fail⟩ ⟨none⟩ []).2 = []) :=
  claim_C3 ⟨true, true, NormResult.ok, AsrResult.fail⟩ ⟨none⟩ [] rfl

/-- Claim C4: when the transcription call succeeds but yields a missing
or malformed transcript object — an empty result list, a falsy first
element, or a first element with no text attribute — the pipeline returns
status 500 with the fixed error body and no transcription, never
status 200. -/
theorem claim_C4 (env : ServerEnv) (f : UploadFile) (d : List Nat)
    (hml : env.modelLoaded = true) (hf : f.filename ≠ "")
    (hsv : env.saveOk = true) (hnm : env.norm = NormResult.ok)
    (items : List TranscriptItem) (hasr : env.asr = AsrResult.ok items)
    (hbad : items = [] ∨
      ∃ it rest, items = it :: rest ∧ (it.truthy = false ∨ it.text = none)) :
    (transcribe env ⟨some f⟩ d).1.status = 500 ∧
      (transcribe env ⟨some f⟩ d).1.status ≠ 200 ∧
      (transcribe env ⟨some f⟩ d).1.transcription = none ∧
      (transcribe env ⟨some f⟩ d).1.error =
        some ("Transcription failed. No text returned.") := by
  have hresp : (transcribe env ⟨some f⟩ d).1 = (transcribeBody env d).1 :=
    transcribe_some_resp env f d hml hf
  have hb : (transcribeBody env d).1 =
      ⟨500, none, some ("Transcription failed. No text returned.")⟩ := by
    unfold transcribeBody
    rw [if_neg (by simp [hsv] : ¬env.saveOk = false), hnm, hasr]
    simp only []
    rcases hbad with hnil | ⟨it, rest, hcons, hbadit⟩
    · subst hnil; rfl
    · subst hcons
      simp only []
      rcases hbadit with htr | htx
      · rw [if_neg (by simp [htr])]
      · cases htr : it.truthy
        · rw [if_neg (by simp [htr])]
        · rw [if_pos (by simp [htr]), htx]
  rw [hresp, hb]
  refine ⟨rfl, by decide, rfl, rfl⟩

theorem claim_C4_witness :
    (transcribe ⟨true, true, NormResult.ok, AsrResult.ok []⟩
        ⟨some ⟨"a.wav", [1]⟩⟩ []).1.status = 500 ∧
      (transcribe ⟨true, true, NormResult.ok, AsrResult.ok []⟩
        ⟨some ⟨"a.wav", [1]⟩⟩ []).1.status ≠ 200 ∧
      (transcribe ⟨true, true, NormResult.ok, AsrResult.ok []⟩
        ⟨some ⟨"a.wav", [1]⟩⟩ []).1.transcription = none ∧
      (transcribe ⟨true, true, NormResult.ok, AsrResult.ok []⟩
        ⟨some ⟨"a.wav", [1]⟩⟩ []).1.error =
        some ("Transcription failed. No text returned.") :=
  claim_C4 ⟨true, true, NormResult.ok, AsrResult.ok []⟩ ⟨"a.wav", [1]⟩ []
    rfl (by decide) rfl rfl [] rfl (Or.inl rfl)

set_option maxRecDepth 100000 in
/-- Claim C6: for the concrete input with stem axxam and
possessive-pronoun particle ines, the corrector joins them with a
hyphen. -/
theorem claim_C6 :
    post_process_kabyle_text ("axxam ines") = "axxam-ines" := by
  decide

set_option maxRecDepth 100000 in
/-- Claim C1 counterexample: the corrector is not idempotent.  On
input with two successive annexable pairs sharing a middle word, the
first pass joins only the first pair (the scan resumes after the match),
and a second pass joins the rest, so a second application changes the
result. -/
theorem claim_C1_counterexample :
    post_process_kabyle_text (post_process_kabyle_text ("ab ad ad")) ≠
      post_process_kabyle_text ("ab ad ad") := by
  decide

/-! ## Character lemmas -/

theorem toNat_ofNat_lt (n : Nat) (h : n < 55296) : (Char.ofNat n).toNat = n := by
  unfold Char.ofNat
  rw [dif_pos (Or.inl h : Nat.isValidChar n)]
  simp [Char.ofNatAux, Char.toNat, UInt32.toNat]

theorem isUpperChar_lowerChar (c : Char) : isUpperChar (lowerChar c) = false := by
  unfold lowerChar
  by_cases h : 65 ≤ c.toNat ∧ c.toNat ≤ 90
  · rw [if_pos h]
    have hn : (Char.ofNat (c.toNat + 32)).toNat = c.toNat + 32 :=
      toNat_ofNat_lt _ (by omega)
    simp [isUpperChar, hn]
    omega
  · rw [if_neg h]
    simp [isUpperChar]
    omega

theorem lowerChar_fix (c : Char) (h : isUpperChar c = false) : lowerChar c = c := by
  unfold lowerChar
  rw [if_neg]
  simpa [isUpperChar] using h

/-! ## Equation lemmas for the scanners -/

theorem wsAux_cons_space_true (x : Char) (xs : List Char)
    (hx : isSpaceChar x = true) :
    wsCollapseAux true (x :: xs) = wsCollapseAux true xs := by
  simp [wsCollapseAux, hx]

theorem wsAux_cons_space_false (x : Char) (xs : List Char)
    (hx : isSpaceChar x = true) :
    wsCollapseAux false (x :: xs) = ' ' :: wsCollapseAux true xs := by
  simp [wsCollapseAux, hx]

theorem wsAux_cons_nonspace (b : Bool) (x : Char) (xs : List Char)
    (hx : isSpaceChar x = false) :
    wsCollapseAux b (x :: xs) = x :: wsCollapseAux false xs := by
  cases b <;> simp [wsCollapseAux, hx]

theorem hyAux_cons_hyphen_true (x : Char) (xs : List Char) (hx : x = '-') :
    hyCollapseAux true (x :: xs) = hyCollapseAux true xs := by
  simp [hyCollapseAux, hx]

theorem hyAux_cons_hyphen_false (x : Char) (xs : List Char) (hx : x = '-') :
    hyCollapseAux false (x :: xs) = '-' :: hyCollapseAux true xs := by
  simp [hyCollapseAux, hx]

theorem hyAux_cons_other (b : Bool) (x : Char) (xs : List Char)
    (hx : x ≠ '-') :
    hyCollapseAux b (x :: xs) = x :: hyCollapseAux false xs := by
  cases b <;> simp [hyCollapseAux, hx]

theorem plainSpaces_cons (c : Char) (l : List Char) :
    plainSpaces (c :: l) = ((!isSpaceChar c || c == ' ') && plainSpaces l) := by
  simp [plainSpaces]

theorem noAdj_cons_cons (a b x y : Char) (l : List Char) :
    noAdj a b (x :: y :: l) = (!(x == a && y == b) && noAdj a b (y :: l)) := rfl

/-! ## Predicate helper lemmas -/

theorem noAdj_cons_elim (a b x : Char) (r : List Char)
    (h : noAdj a b (x :: r) = true) : noAdj a b r = true := by
  cases r with
  | nil => rfl
  | cons y ys =>
    rw [noAdj_cons_cons, Bool.and_eq_true] at h
    exact h.2

theorem noAdj_cons_intro (a b x : Char) (r : List Char)
    (hx : x ≠ a ∨ headIsNot b r = true) (hr : noAdj a b r = true) :
    noAdj a b (x :: r) = true := by
  cases r with
  | nil => rfl
  | cons y ys =>
    have hy : (x == a && y == b) = false := by
      rcases hx with hx | hx
      · simp [hx]
      · simp only [headIsNot, bne_iff_ne, ne_eq] at hx
        simp [hx]
    rw [noAdj_cons_cons, hy]
    simpa using hr

theorem noAdj_head (a b : Char) (r : List Char)
    (h : noAdj a b (a :: r) = true) : headIsNot b r = true := by
  cases r with
  | nil => rfl
  | cons y ys =>
    rw [noAdj_cons_cons, Bool.and_eq_true] at h
    have h1 := h.1
    simp only [headIsNot, bne_iff_ne, ne_eq]
    intro hy
    rw [hy] at h1
    simp at h1

theorem headIsNot_of_headNotSpace (l : List Char)
    (h : headNotSpace l = true) : headIsNot ' ' l = true := by
  cases l with
  | nil => rfl
  | cons c cs =>
    simp only [headNotSpace, Bool.not_eq_true'] at h
    simp only [headIsNot, bne_iff_ne, ne_eq]
    intro hc
    rw [hc] at h
    exact absurd h (by decide)

theorem lastNotSpace_cons (x : Char) (r : List Char) (hr : r ≠ [])
    (h : lastNotSpace r = true) : lastNotSpace (x :: r) = true := by
  cases r with
  | nil => exact absurd rfl hr
  | cons y ys => exact h

theorem lastNotSpace_cons_elim (x : Char) (r : List Char) (hr : r ≠ [])
    (h : lastNotSpace (x :: r) = true) : lastNotSpace r = true := by
  cases r with
  | nil => exact absurd rfl hr
  | cons y ys => exact h

theorem lastNotSpace_single (x : Char) (hx : isSpaceChar x = false) :
    lastNotSpace [x] = true := by
  simp [lastNotSpace, hx]

/-! ## Whitespace-collapse lemmas -/

theorem mem_wsCollapseAux (b : Bool) (l : List Char) (c : Char)
    (h : c ∈ wsCollapseAux b l) : c ∈ l ∨ c = ' ' := by
  induction l generalizing b with
  | nil => simp [wsCollapseAux] at h
  | cons x xs ih =>
    by_cases hx : isSpaceChar x = true
    · cases b
      · rw [wsAux_cons_space_false x xs hx] at h
        rcases List.mem_cons.mp h with h1 | h1
        · exact Or.inr h1
        · rcases ih true h1 with h2 | h2
          · exact Or.inl (List.mem_cons_of_mem _ h2)
          · exact Or.inr h2
      · rw [wsAux_cons_space_true x xs hx] at h
        rcases ih true h with h1 | h1
        · exact Or.inl (List.mem_cons_of_mem _ h1)
        · exact Or.inr h1
    · rw [Bool.not_eq_true] at hx
      rw [wsAux_cons_nonspace b x xs hx] at h
      rcases List.mem_cons.mp h with h1 | h1
      · exact Or.inl (by rw [h1]; exact List.mem_cons_self _ _)
      · rcases ih false h1 with h2 | h2
        · exact Or.inl (List.mem_cons_of_mem _ h2)
        · exact Or.inr h2

theorem plainSpaces_wsCollapseAux (b : Bool) (l : List Char) :
    plainSpaces (wsCollapseAux b l) = true := by
  induction l generalizing b with
  | nil => rfl
  | cons x xs ih =>
    by_cases hx : isSpaceChar x = true
    · cases b
      · rw [wsAux_cons_space_false x xs hx, plainSpaces_cons]
        rw [ih true]
        decide
      · rw [wsAux_cons_space_true x xs hx]
        exact ih true
    · rw [Bool.not_eq_true] at hx
      rw [wsAux_cons_nonspace b x xs hx, plainSpaces_cons, ih false, hx]
      rfl

theorem headNotSpace_wsCollapseAux_true (l : List Char) :
    headNotSpace (wsCollapseAux true l) = true := by
  induction l with
  | nil => rfl
  | cons x xs ih =>
    by_cases hx : isSpaceChar x = true
    · rw [wsAux_cons_space_true x xs hx]
      exact ih
    · rw [Bool.not_eq_true] at hx
      rw [wsAux_cons_nonspace true x xs hx]
      simp [headNotSpace, hx]

theorem noAdj_space_wsCollapseAux (b : Bool) (l : List Char) :
    noAdj ' ' ' ' (wsCollapseAux b l) = true := by
  induction l generalizing b with
  | nil => rfl
  | cons x xs ih =>
    by_cases hx : isSpaceChar x = true
    · cases b
      · rw [wsAux_cons_space_false x xs hx]
        refine noAdj_cons_intro _ _ _ _ (Or.inr ?_) (ih true)
        exact headIsNot_of_headNotSpace _ (headNotSpace_wsCollapseAux_true xs)
      · rw [wsAux_cons_space_true x xs hx]
        exact ih true
    · rw [Bool.not_eq_true] at hx
      rw [wsAux_cons_nonspace b x xs hx]
      refine noAdj_cons_intro _ _ _ _ (Or.inl ?_) (ih false)
      intro hc
      rw [hc] at hx
      exact absurd hx (by decide)

/-! ## Strip lemmas -/

theorem plainSpaces_of_mem (l : List Char)
    (h : ∀ c ∈ l, (!isSpaceChar c || c == ' ') = true) : plainSpaces l = true :=
  List.all_eq_true.mpr h

theorem plainSpaces_elim (l : List Char) (h : plainSpaces l = true)
    (c : Char) (hc : c ∈ l) : (!isSpaceChar c || c == ' ') = true :=
  List.all_eq_true.mp h c hc

theorem headNotSpace_dropWhile (l : List Char) :
    headNotSpace (l.dropWhile isSpaceChar) = true := by
  induction l with
  | nil => rfl
  | cons c cs ih =>
    rw [List.dropWhile_cons]
    by_cases hc : isSpaceChar c = true
    · rw [if_pos hc]
      exact ih
    · rw [Bool.not_eq_true] at hc
      rw [hc]
      simp [headNotSpace, hc]

theorem dropTrailing_cons (c : Char) (cs : List Char) :
    dropTrailing (c :: cs) =
      match dropTrailing cs with
      | [] => if isSpaceChar c then [] else [c]
      | r => c :: r := rfl

theorem dropTrailing_lastNotSpace (l : List Char) :
    lastNotSpace (dropTrailing l) = true := by
  induction l with
  | nil => rfl
  | cons c cs ih =>
    rw [dropTrailing_cons]
    cases hr : dropTrailing cs with
    | nil =>
      by_cases hc : isSpaceChar c = true
      · rw [if_pos hc]
        rfl
      · rw [Bool.not_eq_true] at hc
        rw [if_neg (by simp [hc])]
        exact lastNotSpace_single c hc
    | cons y ys =>
      rw [hr] at ih
      exact lastNotSpace_cons c (y :: ys) (by simp) ih

theorem dropTrailing_headNotSpace (l : List Char)
    (h : headNotSpace l = true) : headNotSpace (dropTrailing l) = true := by
  cases l with
  | nil => rfl
  | cons c cs =>
    rw [dropTrailing_cons]
    cases dropTrailing cs with
    | nil =>
      by_cases hc : isSpaceChar c = true
      · rw [if_pos hc]
        rfl
      · rw [Bool.not_eq_true] at hc
        rw [if_neg (by simp [hc])]
        exact h
    | cons y ys => exact h

theorem dropTrailing_append (l : List Char) :
    ∃ t, l = dropTrailing l ++ t := by
  induction l with
  | nil => exact ⟨[], rfl⟩
  | cons c cs ih =>
    rw [dropTrailing_cons]
    cases hr : dropTrailing cs with
    | nil =>
      by_cases hc : isSpaceChar c = true
      · exact ⟨c :: cs, by rw [if_pos hc]; rfl⟩
      · rw [Bool.not_eq_true] at hc
        rcases ih with ⟨t, ht⟩
        rw [hr] at ht
        exact ⟨cs, by rw [if_neg (by simp [hc])]; simp [ht]⟩
    | cons y ys =>
      rcases ih with ⟨t, ht⟩
      rw [hr] at ht
      exact ⟨t, by rw [ht]; simp⟩

theorem noAdj_append_left (a b : Char) (xs ys : List Char)
    (h : noAdj a b (xs ++ ys) = true) : noAdj a b xs = true := by
  induction xs with
  | nil => rfl
  | cons x t ih =>
    cases t with
    | nil => rfl
    | cons y ts =>
      simp only [List.cons_append] at h
      rw [noAdj_cons_cons, Bool.and_eq_true] at h
      rw [noAdj_cons_cons, Bool.and_eq_true]
      refine ⟨h.1, ih ?_⟩
      simpa using h.2

theorem noAdj_append_right (a b : Char) (xs ys : List Char)
    (h : noAdj a b (xs ++ ys) = true) : noAdj a b ys = true := by
  induction xs with
  | nil => simpa using h
  | cons x t ih =>
    simp only [List.cons_append] at h
    exact ih (noAdj_cons_elim a b x (t ++ ys) h)

theorem mem_dropWhile_sub (p : Char → Bool) (l : List Char) (c : Char)
    (h : c ∈ l.dropWhile p) : c ∈ l := by
  have h2 : c ∈ l.takeWhile p ++ l.dropWhile p := List.mem_append_right _ h
  rwa [List.takeWhile_append_dropWhile] at h2

theorem mem_dropTrailing_sub (l : List Char) (c : Char)
    (h : c ∈ dropTrailing l) : c ∈ l := by
  rcases dropTrailing_append l with ⟨t, ht⟩
  rw [ht]
  exact List.mem_append_left _ h

theorem mem_strip_sub (l : List Char) (c : Char) (h : c ∈ strip l) : c ∈ l :=
  mem_dropWhile_sub _ _ _ (mem_dropTrailing_sub _ _ h)

theorem headNotSpace_strip (l : List Char) : headNotSpace (strip l) = true :=
  dropTrailing_headNotSpace _ (headNotSpace_dropWhile l)

theorem lastNotSpace_strip (l : List Char) : lastNotSpace (strip l) = true :=
  dropTrailing_lastNotSpace _

theorem noAdj_strip (a b : Char) (l : List Char) (h : noAdj a b l = true) :
    noAdj a b (strip l) = true := by
  have h1 : noAdj a b (l.dropWhile isSpaceChar) = true := by
    refine noAdj_append_right a b (l.takeWhile isSpaceChar) _ ?_
    rw [List.takeWhile_append_dropWhile]
    exact h
  rcases dropTrailing_append (l.dropWhile isSpaceChar) with ⟨t, ht⟩
  show noAdj a b (dropTrailing (l.dropWhile isSpaceChar)) = true
  refine noAdj_append_left a b _ t ?_
  rw [← ht]
  exact h1

theorem plainSpaces_strip (l : List Char) (h : plainSpaces l = true) :
    plainSpaces (strip l) = true :=
  plainSpaces_of_mem _ fun c hc => plainSpaces_elim l h c (mem_strip_sub l c hc)

/-! ## Hyphen-collapse lemmas -/

theorem mem_hyCollapseAux (b : Bool) (l : List Char) (c : Char)
    (h : c ∈ hyCollapseAux b l) : c ∈ l ∨ c = '-' := by
  induction l generalizing b with
  | nil => simp [hyCollapseAux] at h
  | cons x xs ih =>
    by_cases hx : x = '-'
    · cases b
      · rw [hyAux_cons_hyphen_false x xs hx] at h
        rcases List.mem_cons.mp h with h1 | h1
        · exact Or.inr h1
        · rcases ih true h1 with h2 | h2
          · exact Or.inl (List.mem_cons_of_mem _ h2)
          · exact Or.inr h2
      · rw [hyAux_cons_hyphen_true x xs hx] at h
        rcases ih true h with h1 | h1
        · exact Or.inl (List.mem_cons_of_mem _ h1)
        · exact Or.inr h1
    · rw [hyAux_cons_other b x xs hx] at h
      rcases List.mem_cons.mp h with h1 | h1
      · exact Or.inl (by rw [h1]; exact List.mem_cons_self _ _)
      · rcases ih false h1 with h2 | h2
        · exact Or.inl (List.mem_cons_of_mem _ h2)
        · exact Or.inr h2

theorem headIsNot_hyphen_hyAux_true (l : List Char) :
    headIsNot '-' (hyCollapseAux true l) = true := by
  induction l with
  | nil => rfl
  | cons x xs ih =>
    by_cases hx : x = '-'
    · rw [hyAux_cons_hyphen_true x xs hx]
      exact ih
    · rw [hyAux_cons_other true x xs hx]
      simpa [headIsNot] using hx

theorem noAdj_hyphen_hyCollapseAux (b : Bool) (l : List Char) :
    noAdj '-' '-' (hyCollapseAux b l) = true := by
  induction l generalizing b with
  | nil => rfl
  | cons x xs ih =>
    by_cases hx : x = '-'
    · cases b
      · rw [hyAux_cons_hyphen_false x xs hx]
        exact noAdj_cons_intro _ _ _ _ (Or.inr (headIsNot_hyphen_hyAux_true xs))
          (ih true)
      · rw [hyAux_cons_hyphen_true x xs hx]
        exact ih true
    · rw [hyAux_cons_other b x xs hx]
      exact noAdj_cons_intro _ _ _ _ (Or.inl hx) (ih false)

theorem headIsNot_hyAux_false (a : Char) (ha : a ≠ '-') (l : List Char)
    (h : headIsNot a l = true) : headIsNot a (hyCollapseAux false l) = true := by
  cases l with
  | nil => rfl
  | cons c cs =>
    by_cases hc : c = '-'
    · rw [hyAux_cons_hyphen_false c cs hc]
      simpa [headIsNot] using (Ne.symm ha)
    · rw [hyAux_cons_other false c cs hc]
      exact h

theorem noAdj_space_hyCollapseAux (b : Bool) (l : List Char)
    (h : noAdj ' ' ' ' l = true) :
    noAdj ' ' ' ' (hyCollapseAux b l) = true := by
  induction l generalizing b with
  | nil => rfl
  | cons x xs ih =>
    have hxs : noAdj ' ' ' ' xs = true := noAdj_cons_elim _ _ _ _ h
    by_cases hx : x = '-'
    · cases b
      · rw [hyAux_cons_hyphen_false x xs hx]
        exact noAdj_cons_intro _ _ _ _ (Or.inl (by decide)) (ih true hxs)
      · rw [hyAux_cons_hyphen_true x xs hx]
        exact ih true hxs
    · rw [hyAux_cons_other b x xs hx]
      by_cases hsp : x = ' '
      · refine noAdj_cons_intro _ _ _ _ (Or.inr ?_) (ih false hxs)
        refine headIsNot_hyAux_false ' ' (by decide) xs ?_
        rw [hsp] at h
        exact noAdj_head ' ' ' ' xs h
      · exact noAdj_cons_intro _ _ _ _ (Or.inl hsp) (ih false hxs)

theorem headNotSpace_hyAux (l : List Char) (h : headNotSpace l = true) :
    headNotSpace (hyCollapseAux false l) = true := by
  cases l with
  | nil => rfl
  | cons c cs =>
    by_cases hc : c = '-'
    · rw [hyAux_cons_hyphen_false c cs hc]
      rfl
    · rw [hyAux_cons_other false c cs hc]
      exact h

theorem hyAux_false_ne_nil (l : List Char) (h : l ≠ []) :
    hyCollapseAux false l ≠ [] := by
  cases l with
  | nil => exact absurd rfl h
  | cons c cs =>
    by_cases hc : c = '-'
    · rw [hyAux_cons_hyphen_false c cs hc]
      simp
    · rw [hyAux_cons_other false c cs hc]
      simp

theorem lastNotSpace_hyAux (b : Bool) (l : List Char)
    (h : lastNotSpace l = true) :
    lastNotSpace (hyCollapseAux b l) = true := by
  induction l generalizing b with
  | nil => rfl
  | cons c cs ih =>
    cases cs with
    | nil =>
      by_cases hc : c = '-'
      · cases b
        · rw [hyAux_cons_hyphen_false c [] hc]
          decide
        · rw [hyAux_cons_hyphen_true c [] hc]
          rfl
      · rw [hyAux_cons_other b c [] hc]
        exact h
    | cons d ds =>
      have hcs : lastNotSpace (d :: ds) = true :=
        lastNotSpace_cons_elim c (d :: ds) (by simp) h
      by_cases hc : c = '-'
      · cases b
        · rw [hyAux_cons_hyphen_false c (d :: ds) hc]
          cases hr : hyCollapseAux true (d :: ds) with
          | nil => decide
          | cons y ys =>
            refine lastNotSpace_cons '-' (y :: ys) (by simp) ?_
            rw [← hr]
            exact ih true hcs
        · rw [hyAux_cons_hyphen_true c (d :: ds) hc]
          exact ih true hcs
      · rw [hyAux_cons_other b c (d :: ds) hc]
        refine lastNotSpace_cons c _ (hyAux_false_ne_nil (d :: ds) (by simp)) ?_
        exact ih false hcs

theorem plainSpaces_hyAux (b : Bool) (l : List Char)
    (h : plainSpaces l = true) : plainSpaces (hyCollapseAux b l) = true := by
  refine plainSpaces_of_mem _ fun c hc => ?_
  rcases mem_hyCollapseAux b l c hc with h1 | h1
  · exact plainSpaces_elim l h c h1
  · rw [h1]
    decide

/-! ## Annexation-substitution lemmas -/

theorem stripLit_append (p r r' : List Char) (h : stripLit p r = some r') :
    r = p ++ r' := by
  induction p generalizing r with
  | nil =>
    simp only [stripLit, Option.some_inj] at h
    rw [← h]
    rfl
  | cons a ps ih =>
    cases r with
    | nil => exact absurd h (by simp [stripLit])
    | cons b rs =>
      simp only [stripLit] at h
      by_cases hab : a = b
      · rw [if_pos (by simp [hab])] at h
        rw [List.cons_append, ← ih rs h, hab]
      · rw [if_neg (by simp [hab])] at h
        exact absurd h (by simp)

theorem firstMatch_sound (ps : List (List Char)) (r p r' : List Char)
    (h : firstMatch ps r = some (p, r')) :
    p ∈ ps ∧ stripLit p r = some r' ∧ boundaryOk r' = true := by
  induction ps with
  | nil => exact absurd h (by simp [firstMatch])
  | cons q qs ih =>
    simp only [firstMatch] at h
    cases hq : stripLit q r with
    | none =>
      rw [hq] at h
      rcases ih h with ⟨h1, h2, h3⟩
      exact ⟨List.mem_cons_of_mem _ h1, h2, h3⟩
    | some rest =>
      rw [hq] at h
      have h2 : (if boundaryOk rest = true then some (q, rest)
          else firstMatch qs r) = some (p, r') := h
      by_cases hb : boundaryOk rest = true
      · rw [if_pos hb] at h2
        rw [Option.some_inj, Prod.mk.injEq] at h2
        rcases h2 with ⟨hqp, hrr⟩
        rw [← hqp, ← hrr]
        exact ⟨List.mem_cons_self _ _, hq, hb⟩
      · rw [if_neg hb] at h2
        rcases ih h2 with ⟨h1, h2b, h3⟩
        exact ⟨List.mem_cons_of_mem _ h1, h2b, h3⟩

theorem tryAnnex_mem (ps : List (List Char)) (l st p r : List Char)
    (h : tryAnnex ps l = some (st, p, r)) :
    (∀ c ∈ st, c ∈ l) ∧ (∀ c ∈ p, c ∈ l) ∧ (∀ c ∈ r, c ∈ l) := by
  simp only [tryAnnex] at h
  by_cases h2 : (l.takeWhile isWordChar).length < 2
  · rw [if_pos h2] at h
    exact absurd h (by simp)
  · rw [if_neg h2] at h
    by_cases h3 : ((l.dropWhile isWordChar).takeWhile isSpaceChar).isEmpty = true
    · rw [if_pos h3] at h
      exact absurd h (by simp)
    · rw [if_neg h3] at h
      cases hfm : firstMatch ps ((l.dropWhile isWordChar).dropWhile isSpaceChar) with
      | none =>
        rw [hfm] at h
        exact absurd h (by simp)
      | some v =>
        rcases v with ⟨p0, rest⟩
        rw [hfm] at h
        simp only [Option.some_inj, Prod.mk.injEq] at h
        rcases h with ⟨hst, hp, hr⟩
        have hsplit : (l.dropWhile isWordChar).dropWhile isSpaceChar = p ++ r := by
          rw [← hp, ← hr]
          exact stripLit_append _ _ _ (firstMatch_sound _ _ _ _ hfm).2.1
        refine ⟨fun c hc => ?_, fun c hc => ?_, fun c hc => ?_⟩
        · rw [← hst] at hc
          have hc2 : c ∈ l.takeWhile isWordChar ++ l.dropWhile isWordChar :=
            List.mem_append_left _ hc
          rwa [List.takeWhile_append_dropWhile] at hc2
        · have hc2 : c ∈ (l.dropWhile isWordChar).dropWhile isSpaceChar := by
            rw [hsplit]
            exact List.mem_append_left _ hc
          exact mem_dropWhile_sub _ _ _ (mem_dropWhile_sub _ _ _ hc2)
        · have hc2 : c ∈ (l.dropWhile isWordChar).dropWhile isSpaceChar := by
            rw [hsplit]
            exact List.mem_append_right _ hc
          exact mem_dropWhile_sub _ _ _ (mem_dropWhile_sub _ _ _ hc2)

theorem annexSubAux_zero (ps : List (List Char)) (b : Bool) (l : List Char) :
    annexSubAux ps 0 b l = l := rfl

theorem annexSubAux_succ_nil (ps : List (List Char)) (n : Nat) (b : Bool) :
    annexSubAux ps (n + 1) b [] = [] := rfl

theorem annexSubAux_succ_true (ps : List (List Char)) (n : Nat) (x : Char)
    (xs : List Char) :
    annexSubAux ps (n + 1) true (x :: xs) =
      x :: annexSubAux ps n (isWordChar x) xs := by
  simp [annexSubAux]

theorem annexSubAux_succ_false (ps : List (List Char)) (n : Nat) (x : Char)
    (xs : List Char) :
    annexSubAux ps (n + 1) false (x :: xs) =
      match tryAnnex ps (x :: xs) with
      | some (st, p, r) => st ++ '-' :: (p ++ annexSubAux ps n true r)
      | none => x :: annexSubAux ps n (isWordChar x) xs := by
  simp [annexSubAux]

theorem mem_annexSubAux (ps : List (List Char)) (fuel : Nat) (b : Bool)
    (l : List Char) (c : Char) (h : c ∈ annexSubAux ps fuel b l) :
    c ∈ l ∨ c = '-' := by
  induction fuel generalizing b l with
  | zero =>
    rw [annexSubAux_zero] at h
    exact Or.inl h
  | succ n ih =>
    cases l with
    | nil =>
      rw [annexSubAux_succ_nil] at h
      exact absurd h (by simp)
    | cons x xs =>
      cases b with
      | true =>
        rw [annexSubAux_succ_true] at h
        rcases List.mem_cons.mp h with h1 | h1
        · exact Or.inl (by rw [h1]; exact List.mem_cons_self _ _)
        · rcases ih _ _ h1 with h2 | h2
          · exact Or.inl (List.mem_cons_of_mem _ h2)
          · exact Or.inr h2
      | false =>
        rw [annexSubAux_succ_false] at h
        cases ht : tryAnnex ps (x :: xs) with
        | none =>
          rw [ht] at h
          rcases List.mem_cons.mp h with h1 | h1
          · exact Or.inl (by rw [h1]; exact List.mem_cons_self _ _)
          · rcases ih _ _ h1 with h2 | h2
            · exact Or.inl (List.mem_cons_of_mem _ h2)
            · exact Or.inr h2
        | some v =>
          rcases v with ⟨st, p, r⟩
          rw [ht] at h
          rcases tryAnnex_mem ps (x :: xs) st p r ht with ⟨hst, hp, hr⟩
          rcases List.mem_append.mp h with h1 | h1
          · exact Or.inl (hst c h1)
          · rcases List.mem_cons.mp h1 with h2 | h2
            · exact Or.inr h2
            · rcases List.mem_append.mp h2 with h3 | h3
              · exact Or.inl (hp c h3)
              · rcases ih _ _ h3 with h4 | h4
                · exact Or.inl (hr c h4)
                · exact Or.inr h4

theorem mem_correctList (ps : List (List Char)) (l : List Char) (c : Char)
    (h : c ∈ correctList ps l) :
    (∃ x ∈ l, c = lowerChar x) ∨ c = '-' ∨ c = ' ' := by
  have h1 : c ∈ hyCollapseAux false
      (strip (wsCollapse (annexSub ps (l.map lowerChar)))) := h
  rcases mem_hyCollapseAux _ _ _ h1 with h2 | h2
  · have h3 : c ∈ wsCollapse (annexSub ps (l.map lowerChar)) :=
      mem_strip_sub _ _ h2
    rcases mem_wsCollapseAux _ _ _ h3 with h4 | h4
    · rcases mem_annexSubAux _ _ _ _ _ h4 with h5 | h5
      · rcases List.mem_map.mp h5 with ⟨x, hx, hxc⟩
        exact Or.inl ⟨x, hx, hxc.symm⟩
      · exact Or.inr (Or.inl h5)
    · exact Or.inr (Or.inr h4)
  · exact Or.inr (Or.inl h2)

theorem upperFree_correctList (ps : List (List Char)) (l : List Char)
    (c : Char) (h : c ∈ correctList ps l) : isUpperChar c = false := by
  rcases mem_correctList ps l c h with ⟨x, _, hc⟩ | h1 | h1
  · rw [hc]
    exact isUpperChar_lowerChar x
  · rw [h1]
    decide
  · rw [h1]
    decide

/-- Claim C9: for every string input, the output of the corrector
contains no upper-case character — the whole text is lower-cased as part
of the contract, and the substitution only inserts hyphens and the
cleanup only inserts spaces. -/
theorem claim_C9 (s : String) :
    ((post_process_kabyle_text s).data.all fun c => !isUpperChar c) = true := by
  unfold post_process_kabyle_text
  by_cases hs : s.isEmpty
  · rw [if_pos hs]
    rfl
  · rw [if_neg hs]
    rw [List.all_eq_true]
    intro c hc
    have h1 : c ∈ correctList annexParticles s.data := hc
    rw [upperFree_correctList _ _ _ h1]
    rfl

/-- Claim C8: for every string input, the output of the corrector
contains no whitespace character other than a plain space, no two
consecutive spaces, no leading or trailing whitespace, and no two
consecutive hyphens. -/
theorem claim_C8 (s : String) :
    plainSpaces (post_process_kabyle_text s).data = true ∧
      noAdj ' ' ' ' (post_process_kabyle_text s).data = true ∧
      headNotSpace (post_process_kabyle_text s).data = true ∧
      lastNotSpace (post_process_kabyle_text s).data = true ∧
      noAdj '-' '-' (post_process_kabyle_text s).data = true := by
  unfold post_process_kabyle_text
  by_cases hs : s.isEmpty
  · rw [if_pos hs]
    exact ⟨rfl, rfl, rfl, rfl, rfl⟩
  · rw [if_neg hs]
    refine ⟨?_, ?_, ?_, ?_, ?_⟩
    · show plainSpaces (hyCollapseAux false (strip (wsCollapseAux false
        (annexSub annexParticles (s.data.map lowerChar))))) = true
      exact plainSpaces_hyAux false _
        (plainSpaces_strip _ (plainSpaces_wsCollapseAux false _))
    · show noAdj ' ' ' ' (hyCollapseAux false (strip (wsCollapseAux false
        (annexSub annexParticles (s.data.map lowerChar))))) = true
      exact noAdj_space_hyCollapseAux false _
        (noAdj_strip _ _ _ (noAdj_space_wsCollapseAux false _))
    · show headNotSpace (hyCollapseAux false (strip (wsCollapseAux false
        (annexSub annexParticles (s.data.map lowerChar))))) = true
      exact headNotSpace_hyAux _ (headNotSpace_strip _)
    · show lastNotSpace (hyCollapseAux false (strip (wsCollapseAux false
        (annexSub annexParticles (s.data.map lowerChar))))) = true
      exact lastNotSpace_hyAux false _ (lastNotSpace_strip _)
    · show noAdj '-' '-' (hyCollapseAux false (strip (wsCollapseAux false
        (annexSub annexParticles (s.data.map lowerChar))))) = true
      exact noAdj_hyphen_hyCollapseAux false _

/-! ## Normal forms are fixed points of the cleanup passes -/

theorem plainSpaces_tail (c : Char) (l : List Char)
    (h : plainSpaces (c :: l) = true) : plainSpaces l = true := by
  rw [plainSpaces_cons, Bool.and_eq_true] at h
  exact h.2

theorem plainSpaces_head_space (c : Char) (l : List Char)
    (h : plainSpaces (c :: l) = true) (hc : isSpaceChar c = true) : c = ' ' := by
  rw [plainSpaces_cons, Bool.and_eq_true] at h
  have h1 := h.1
  rw [hc] at h1
  simpa using h1

theorem headNotSpace_of_plain_headIsNot (l : List Char)
    (hp : plainSpaces l = true) (hh : headIsNot ' ' l = true) :
    headNotSpace l = true := by
  cases l with
  | nil => rfl
  | cons c cs =>
    simp only [headIsNot, bne_iff_ne, ne_eq] at hh
    simp only [headNotSpace, Bool.not_eq_true']
    by_cases hc : isSpaceChar c = true
    · exact absurd (plainSpaces_head_space c cs hp hc) hh
    · rwa [Bool.not_eq_true] at hc

theorem wsCollapseAux_id (l : List Char) (b : Bool)
    (hps : plainSpaces l = true) (hna : noAdj ' ' ' ' l = true)
    (hb : b = true → headNotSpace l = true) :
    wsCollapseAux b l = l := by
  induction l generalizing b with
  | nil => rfl
  | cons x xs ih =>
    have hps' : plainSpaces xs = true := plainSpaces_tail x xs hps
    have hna' : noAdj ' ' ' ' xs = true := noAdj_cons_elim _ _ _ _ hna
    by_cases hx : isSpaceChar x = true
    · have hxsp : x = ' ' := plainSpaces_head_space x xs hps hx
      cases b with
      | true =>
        have hhd := hb rfl
        simp only [headNotSpace, Bool.not_eq_true'] at hhd
        exact absurd hx (by rw [hhd]; simp)
      | false =>
        rw [wsAux_cons_space_false x xs hx]
        have hhd : headNotSpace xs = true := by
          refine headNotSpace_of_plain_headIsNot xs hps' ?_
          rw [hxsp] at hna
          exact noAdj_head ' ' ' ' xs hna
        rw [ih true hps' hna' (fun _ => hhd), hxsp]
    · rw [Bool.not_eq_true] at hx
      rw [wsAux_cons_nonspace b x xs hx]
      rw [ih false hps' hna' (fun hfe => absurd hfe Bool.false_ne_true)]

theorem dropWhile_id_of_headNotSpace (l : List Char)
    (h : headNotSpace l = true) : l.dropWhile isSpaceChar = l := by
  cases l with
  | nil => rfl
  | cons c cs =>
    simp only [headNotSpace, Bool.not_eq_true'] at h
    rw [List.dropWhile_cons, h]
    rfl

theorem dropTrailing_id (l : List Char) (h : lastNotSpace l = true) :
    dropTrailing l = l := by
  induction l with
  | nil => rfl
  | cons c cs ih =>
    cases cs with
    | nil =>
      simp only [lastNotSpace, Bool.not_eq_true'] at h
      rw [dropTrailing_cons]
      simp only [dropTrailing]
      rw [if_neg (by simp [h])]
    | cons d ds =>
      have h' : lastNotSpace (d :: ds) = true :=
        lastNotSpace_cons_elim c (d :: ds) (by simp) h
      rw [dropTrailing_cons, ih h']

theorem hyCollapseAux_id (l : List Char) (b : Bool)
    (hna : noAdj '-' '-' l = true)
    (hb : b = true → headIsNot '-' l = true) :
    hyCollapseAux b l = l := by
  induction l generalizing b with
  | nil => rfl
  | cons x xs ih =>
    have hna' : noAdj '-' '-' xs = true := noAdj_cons_elim _ _ _ _ hna
    by_cases hx : x = '-'
    · cases b with
      | true =>
        have hhd := hb rfl
        simp only [headIsNot, bne_iff_ne, ne_eq] at hhd
        exact absurd hx hhd
      | false =>
        rw [hyAux_cons_hyphen_false x xs hx]
        have hhd : headIsNot '-' xs = true := by
          rw [hx] at hna
          exact noAdj_head '-' '-' xs hna
        rw [ih true hna' (fun _ => hhd), hx]
    · rw [hyAux_cons_other b x xs hx]
      rw [ih false hna' (fun hfe => absurd hfe Bool.false_ne_true)]

theorem map_lowerChar_id (l : List Char)
    (h : ∀ c ∈ l, isUpperChar c = false) : l.map lowerChar = l := by
  induction l with
  | nil => rfl
  | cons c cs ih =>
    rw [List.map_cons, lowerChar_fix c (h c (List.mem_cons_self _ _)),
      ih (fun x hx => h x (List.mem_cons_of_mem _ hx))]

/-- The corrector's output satisfies all the shape predicates of the
cleanup passes (the content behind claim C8). -/
theorem post_shape (s : String) :
    plainSpaces (post_process_kabyle_text s).data = true ∧
      noAdj ' ' ' ' (post_process_kabyle_text s).data = true ∧
      headNotSpace (post_process_kabyle_text s).data = true ∧
      lastNotSpace (post_process_kabyle_text s).data = true ∧
      noAdj '-' '-' (post_process_kabyle_text s).data = true := by
  unfold post_process_kabyle_text
  by_cases hs : s.isEmpty
  · rw [if_pos hs]
    exact ⟨rfl, rfl, rfl, rfl, rfl⟩
  · rw [if_neg hs]
    refine ⟨?_, ?_, ?_, ?_, ?_⟩
    · show plainSpaces (hyCollapseAux false (strip (wsCollapseAux false
        (annexSub annexParticles (s.data.map lowerChar))))) = true
      exact plainSpaces_hyAux false _
        (plainSpaces_strip _ (plainSpaces_wsCollapseAux false _))
    · show noAdj ' ' ' ' (hyCollapseAux false (strip (wsCollapseAux false
        (annexSub annexParticles (s.data.map lowerChar))))) = true
      exact noAdj_space_hyCollapseAux false _
        (noAdj_strip _ _ _ (noAdj_space_wsCollapseAux false _))
    · show headNotSpace (hyCollapseAux false (strip (wsCollapseAux false
        (annexSub annexParticles (s.data.map lowerChar))))) = true
      exact headNotSpace_hyAux _ (headNotSpace_strip _)
    · show lastNotSpace (hyCollapseAux false (strip (wsCollapseAux false
        (annexSub annexParticles (s.data.map lowerChar))))) = true
      exact lastNotSpace_hyAux false _ (lastNotSpace_strip _)
    · show noAdj '-' '-' (hyCollapseAux false (strip (wsCollapseAux false
        (annexSub annexParticles (s.data.map lowerChar))))) = true
      exact noAdj_hyphen_hyCollapseAux false _

/-- The corrector's output has no upper-case character (the content
behind claim C9). -/
theorem post_upperFree (s : String) (c : Char)
    (hc : c ∈ (post_process_kabyle_text s).data) : isUpperChar c = false := by
  revert hc
  unfold post_process_kabyle_text
  by_cases hs : s.isEmpty
  · rw [if_pos hs]
    intro hc
    exact absurd hc (by simp)
  · rw [if_neg hs]
    intro hc
    exact upperFree_correctList annexParticles s.data c hc

/-- Claim C1 (amended): the corrector is idempotent exactly on those
outputs on which the annexation substitution has no further match; when
the substitution pass leaves the first output unchanged, a second
application of the corrector returns it unchanged (the lower-casing and
the cleanup passes are always fixed on the output). -/
theorem claim_C1 (s : String)
    (h : annexSub annexParticles (post_process_kabyle_text s).data =
      (post_process_kabyle_text s).data) :
    post_process_kabyle_text (post_process_kabyle_text s) =
      post_process_kabyle_text s := by
  set t := post_process_kabyle_text s with ht
  obtain ⟨hps, hnaS, hhead, hlast, hnaH⟩ := post_shape s
  rw [← ht] at hps hnaS hhead hlast hnaH
  by_cases hte : t.isEmpty
  · rw [(String.isEmpty_iff t).mp hte]
    rfl
  · unfold post_process_kabyle_text
    rw [if_neg hte]
    have hupper : ∀ c ∈ t.data, isUpperChar c = false := by
      intro c hc
      exact post_upperFree s c (by rw [← ht]; exact hc)
    have hcl : correctList annexParticles t.data = t.data := by
      show hyCollapseAux false (dropTrailing ((wsCollapseAux false
        (annexSub annexParticles (t.data.map lowerChar))).dropWhile
          isSpaceChar)) = t.data
      rw [map_lowerChar_id t.data hupper, h,
        wsCollapseAux_id t.data false hps hnaS
          (fun hfe => absurd hfe Bool.false_ne_true),
        dropWhile_id_of_headNotSpace t.data hhead,
        dropTrailing_id t.data hlast,
        hyCollapseAux_id t.data false hnaH
          (fun hfe => absurd hfe Bool.false_ne_true)]
    rw [hcl]

set_option maxRecDepth 100000 in
theorem claim_C1_witness :
    post_process_kabyle_text (post_process_kabyle_text ("axxam ines")) =
      post_process_kabyle_text ("axxam ines") :=
  claim_C1 ("axxam ines") (by decide)

/-! ## Order-independence of the alternation -/

theorem pMatch_of_parts (p r rest : List Char) (h1 : stripLit p r = some rest)
    (h2 : boundaryOk rest = true) : pMatch p r = true := by
  unfold pMatch
  rw [h1]
  exact h2

theorem firstMatch_none_pMatch (ps : List (List Char)) (r : List Char)
    (h : firstMatch ps r = none) (q : List Char) (hq : q ∈ ps) :
    pMatch q r = false := by
  induction ps with
  | nil => cases hq
  | cons p0 ps0 ih =>
    simp only [firstMatch] at h
    cases hs : stripLit p0 r with
    | none =>
      rw [hs] at h
      have h' : firstMatch ps0 r = none := h
      rcases List.mem_cons.mp hq with h1 | h1
      · rw [h1]
        unfold pMatch
        rw [hs]
      · exact ih h' h1
    | some rest =>
      rw [hs] at h
      have h' : (if boundaryOk rest = true then some (p0, rest)
          else firstMatch ps0 r) = none := h
      by_cases hb : boundaryOk rest = true
      · rw [if_pos hb] at h'
        exact absurd h' (by simp)
      · rw [if_neg hb] at h'
        rcases List.mem_cons.mp hq with h1 | h1
        · rw [h1]
          unfold pMatch
          rw [hs]
          rwa [Bool.not_eq_true] at hb
        · exact ih h' h1

theorem lenSortedB_cons_cons (p q : List Char) (rest : List (List Char)) :
    lenSortedB (p :: q :: rest) =
      (decide (q.length ≤ p.length) && lenSortedB (q :: rest)) := rfl

theorem lenSortedB_tail (p : List Char) (t : List (List Char))
    (h : lenSortedB (p :: t) = true) : lenSortedB t = true := by
  cases t with
  | nil => rfl
  | cons q rest =>
    rw [lenSortedB_cons_cons, Bool.and_eq_true] at h
    exact h.2

theorem lenSortedB_head_ge (p : List Char) (t : List (List Char))
    (h : lenSortedB (p :: t) = true) (q : List Char) (hq : q ∈ t) :
    q.length ≤ p.length := by
  induction t generalizing p with
  | nil => cases hq
  | cons y ys ih =>
    rw [lenSortedB_cons_cons, Bool.and_eq_true] at h
    have h1 : y.length ≤ p.length := of_decide_eq_true h.1
    rcases List.mem_cons.mp hq with h2 | h2
    · rw [h2]
      exact h1
    · exact Nat.le_trans (ih y h.2 h2) h1

theorem firstMatch_is_max (ps : List (List Char)) (r p r' : List Char)
    (hs : lenSortedB ps = true) (h : firstMatch ps r = some (p, r'))
    (q : List Char) (hq : q ∈ ps) (hm : pMatch q r = true) :
    q.length ≤ p.length := by
  induction ps with
  | nil => cases hq
  | cons p0 ps0 ih =>
    simp only [firstMatch] at h
    cases hsl : stripLit p0 r with
    | none =>
      rw [hsl] at h
      have h' : firstMatch ps0 r = some (p, r') := h
      rcases List.mem_cons.mp hq with h1 | h1
      · rw [h1] at hm
        unfold pMatch at hm
        rw [hsl] at hm
        exact absurd hm Bool.false_ne_true
      · exact ih (lenSortedB_tail _ _ hs) h' h1
    | some rest =>
      rw [hsl] at h
      have h' : (if boundaryOk rest = true then some (p0, rest)
          else firstMatch ps0 r) = some (p, r') := h
      by_cases hb : boundaryOk rest = true
      · rw [if_pos hb] at h'
        rw [Option.some_inj, Prod.mk.injEq] at h'
        rcases h' with ⟨hp0, _⟩
        rcases List.mem_cons.mp hq with h1 | h1
        · rw [h1, ← hp0]
        · rw [← hp0]
          exact lenSortedB_head_ge p0 ps0 hs q h1
      · rw [if_neg hb] at h'
        rcases List.mem_cons.mp hq with h1 | h1
        · rw [h1] at hm
          unfold pMatch at hm
          rw [hsl] at hm
          exact absurd hm hb
        · exact ih (lenSortedB_tail _ _ hs) h' h1

theorem pMatch_eq_of_length (p q r : List Char) (hp : pMatch p r = true)
    (hq : pMatch q r = true) (hl : p.length = q.length) : p = q := by
  unfold pMatch at hp hq
  cases hsp : stripLit p r with
  | none =>
    rw [hsp] at hp
    exact absurd hp Bool.false_ne_true
  | some rp =>
    cases hsq : stripLit q r with
    | none =>
      rw [hsq] at hq
      exact absurd hq Bool.false_ne_true
    | some rq =>
      have h1 : r = p ++ rp := stripLit_append _ _ _ hsp
      have h2 : r = q ++ rq := stripLit_append _ _ _ hsq
      exact List.append_inj_left (h1 ▸ h2) hl

theorem firstMatch_congr (ps₁ ps₂ : List (List Char))
    (hmem : ∀ p, p ∈ ps₁ ↔ p ∈ ps₂)
    (hs1 : lenSortedB ps₁ = true) (hs2 : lenSortedB ps₂ = true)
    (r : List Char) :
    firstMatch ps₁ r = firstMatch ps₂ r := by
  cases h1 : firstMatch ps₁ r with
  | none =>
    cases h2 : firstMatch ps₂ r with
    | none => rfl
    | some v =>
      rcases v with ⟨p, r'⟩
      rcases firstMatch_sound _ _ _ _ h2 with ⟨hm, hst, hb⟩
      have hp1 : p ∈ ps₁ := (hmem p).mpr hm
      have hc := firstMatch_none_pMatch _ _ h1 p hp1
      rw [pMatch_of_parts p r r' hst hb] at hc
      exact absurd hc (by simp)
  | some v =>
    rcases v with ⟨p, r'⟩
    cases h2 : firstMatch ps₂ r with
    | none =>
      rcases firstMatch_sound _ _ _ _ h1 with ⟨hm, hst, hb⟩
      have hp2 : p ∈ ps₂ := (hmem p).mp hm
      have hc := firstMatch_none_pMatch _ _ h2 p hp2
      rw [pMatch_of_parts p r r' hst hb] at hc
      exact absurd hc (by simp)
    | some w =>
      rcases w with ⟨q, r''⟩
      rcases firstMatch_sound _ _ _ _ h1 with ⟨hm1, hst1, hb1⟩
      rcases firstMatch_sound _ _ _ _ h2 with ⟨hm2, hst2, hb2⟩
      have hpm1 : pMatch p r = true := pMatch_of_parts _ _ _ hst1 hb1
      have hpm2 : pMatch q r = true := pMatch_of_parts _ _ _ hst2 hb2
      have hle1 : p.length ≤ q.length :=
        firstMatch_is_max ps₂ r q r'' hs2 h2 p ((hmem p).mp hm1) hpm1
      have hle2 : q.length ≤ p.length :=
        firstMatch_is_max ps₁ r p r' hs1 h1 q ((hmem q).mpr hm2) hpm2
      have hpq : p = q :=
        pMatch_eq_of_length p q r hpm1 hpm2 (Nat.le_antisymm hle1 hle2)
      subst hpq
      rw [hst1] at hst2
      rw [Option.some_inj] at hst2
      rw [hst2]

theorem tryAnnex_congr (ps₁ ps₂ : List (List Char)) (l : List Char)
    (hmem : ∀ p, p ∈ ps₁ ↔ p ∈ ps₂)
    (hs1 : lenSortedB ps₁ = true) (hs2 : lenSortedB ps₂ = true) :
    tryAnnex ps₁ l = tryAnnex ps₂ l := by
  unfold tryAnnex
  simp only [firstMatch_congr ps₁ ps₂ hmem hs1 hs2]

theorem annexSubAux_congr (ps₁ ps₂ : List (List Char))
    (hmem : ∀ p, p ∈ ps₁ ↔ p ∈ ps₂)
    (hs1 : lenSortedB ps₁ = true) (hs2 : lenSortedB ps₂ = true)
    (fuel : Nat) (b : Bool) (l : List Char) :
    annexSubAux ps₁ fuel b l = annexSubAux ps₂ fuel b l := by
  induction fuel generalizing b l with
  | zero => rw [annexSubAux_zero, annexSubAux_zero]
  | succ n ih =>
    cases l with
    | nil => rw [annexSubAux_succ_nil, annexSubAux_succ_nil]
    | cons x xs =>
      cases b with
      | true =>
        rw [annexSubAux_succ_true, annexSubAux_succ_true, ih _ _]
      | false =>
        rw [annexSubAux_succ_false, annexSubAux_succ_false,
          tryAnnex_congr ps₁ ps₂ _ hmem hs1 hs2]
        cases ht : tryAnnex ps₂ (x :: xs) with
        | none =>
          show x :: annexSubAux ps₁ n (isWordChar x) xs =
            x :: annexSubAux ps₂ n (isWordChar x) xs
          rw [ih _ _]
        | some v =>
          rcases v with ⟨st, p, r⟩
          show st ++ '-' :: (p ++ annexSubAux ps₁ n true r) =
            st ++ '-' :: (p ++ annexSubAux ps₂ n true r)
          rw [ih _ _]

theorem correctList_congr (ps₁ ps₂ : List (List Char))
    (hmem : ∀ p, p ∈ ps₁ ↔ p ∈ ps₂)
    (hs1 : lenSortedB ps₁ = true) (hs2 : lenSortedB ps₂ = true)
    (l : List Char) : correctList ps₁ l = correctList ps₂ l := by
  unfold correctList annexSub
  rw [annexSubAux_congr ps₁ ps₂ hmem hs1 hs2]

set_option maxRecDepth 100000 in
theorem lenSortedB_annexParticles : lenSortedB annexParticles = true := by
  decide

/-- Claim C10: the corrected text is a function of the input string
alone — any alternation list with the same members as the one the
program builds, sorted by non-increasing length (so any tie order among
the equal-length particles), produces the same output, because at a
given position two distinct equal-length alternatives can never both
match. -/
theorem claim_C10 (ps : List (List Char))
    (hmem : ∀ p, p ∈ ps ↔ p ∈ annexParticles)
    (hs : lenSortedB ps = true) (s : String) :
    correctWith ps s = post_process_kabyle_text s := by
  unfold correctWith post_process_kabyle_text
  by_cases hse : s.isEmpty
  · rw [if_pos hse, if_pos hse]
  · rw [if_neg hse, if_neg hse]
    rw [correctList_congr ps annexParticles hmem hs lenSortedB_annexParticles]

theorem swapHead2_mem (p : List Char) (l : List (List Char)) :
    p ∈ swapHead2 l ↔ p ∈ l := by
  cases l with
  | nil => exact Iff.rfl
  | cons a t =>
    cases t with
    | nil => exact Iff.rfl
    | cons b t2 =>
      show p ∈ b :: a :: t2 ↔ p ∈ a :: b :: t2
      simp only [List.mem_cons]
      tauto

set_option maxRecDepth 100000 in
theorem claim_C10_witness :
    correctWith (swapHead2 annexParticles) ("axxam ines") =
      post_process_kabyle_text ("axxam ines") :=
  claim_C10 (swapHead2 annexParticles)
    (fun p => swapHead2_mem p annexParticles) (by decide) ("axxam ines")

/-! ## The particle lexicon invariants -/

set_option maxRecDepth 100000 in
/-- Claim C5 counterexample: the source defines nine particle classes,
not eight, and no union of eight of them has the same members as the
annexable set the matcher uses — each class contributes at least one
particle absent from all the others, so the claimed "union of the eight
particle classes" is false of the code. -/
theorem claim_C5_counterexample :
    particleClasses.length = 9 ∧
      (particleClasses.all fun c =>
        !sameMembers (classUnion (particleClasses.erase c))
          sorted_all_annexable) = true := by
  constructor
  · rfl
  · decide

/-- Claim C5 (amended): the annexable-particle set used by the matcher
is the deduplicated union of the nine particle classes, ordered by
non-increasing character length with ties broken in a fixed deterministic
order, and the matcher's alternation is exactly that list (tried in that
order). -/
theorem claim_C5 :
    (∀ p : String, p ∈ sorted_all_annexable ↔
      p ∈ PoPro ∨ p ∈ SpWo ∨ p ∈ StPaSp ∨ p ∈ StPa ∨ p ∈ DePa ∨
        p ∈ DiPa ∨ p ∈ FuPa ∨ p ∈ DiObPa ∨ p ∈ InObPa) ∧
      sorted_all_annexable.Nodup ∧
      List.Sorted (fun a b => b.length ≤ a.length) sorted_all_annexable ∧
      annexParticles = sorted_all_annexable.map String.toList := by
  refine ⟨?_, ?_, ?_, rfl⟩
  · intro p
    unfold sorted_all_annexable all_annexable_particles
    rw [List.mem_insertionSort, List.mem_dedup]
    simp only [List.mem_append]
    tauto
  · have hperm := List.perm_insertionSort
      (fun a b : String => b.length ≤ a.length) all_annexable_particles
    exact hperm.nodup_iff.mpr (List.nodup_dedup _)
  · exact List.sorted_insertionSort _ _

end KabAsr
